import Mathlib

/-!
Shallow embedding of the time-representation and timestamp-ledger logic of
`src/src/pages/Index.tsx` (a YouTube timestamp creator).

JavaScript strings are modelled as `List Char`; JavaScript nonnegative
numbers as `Nat`; the `NaN` result of `parseInt` on a non-numeric string as
`none : Option Nat`.  Component state mutated through React setters is
modelled by explicit state passing (`AppState`, `LedgerOp`).
-/

/-- The character class `\d` of the source regexes and of
`input.replace(/[^\d:]/g, '')`: code points `'0'`..`'9'`. -/
def isDigitC (c : Char) : Bool := 48 ≤ c.toNat && c.toNat ≤ 57

/-- The regex character class `[0-5]`: code points `'0'`..`'5'`. -/
def inClass05 (c : Char) : Bool := 48 ≤ c.toNat && c.toNat ≤ 53

/-- Numeric value of a decimal digit character. -/
def digitVal (c : Char) : Nat := c.toNat - 48

/-- Decimal digit character for a value `d ≤ 9`. -/
def digitChar (d : Nat) : Char := Char.ofNat (48 + d)

/-- Fuel-driven decimal rendering (structural so the kernel can evaluate it);
the fuel is irrelevant as soon as it exceeds the number rendered. -/
def natToStringAux : Nat → Nat → List Char
  | 0, _ => []
  | fuel + 1, n =>
    if n < 10 then [digitChar n]
    else natToStringAux fuel (n / 10) ++ [digitChar (n % 10)]

/-- JavaScript number-to-string conversion (`String(n)`, `n.toString()`) for a
nonnegative integer: its decimal digits, no sign, no padding. -/
def natToString (n : Nat) : List Char := natToStringAux (n + 1) n

/-- Value of the maximal digit prefix of a string, starting from `acc`
(the accumulating loop inside JavaScript `parseInt`). -/
def parseDigitsAux : List Char → Nat → Nat
  | [], acc => acc
  | c :: cs, acc => if isDigitC c then parseDigitsAux cs (acc * 10 + digitVal c) else acc

/-- JavaScript `parseInt` on a string with no leading whitespace or sign
(the only shape the call sites produce): the value of the maximal digit
prefix, or `none` (modelling `NaN`) when the string does not start with a
digit. -/
def parseIntJS : List Char → Option Nat
  | [] => none
  | c :: cs => if isDigitC c then some (parseDigitsAux (c :: cs) 0) else none

/-- JavaScript `s.split(':')`: the colon-separated segments of `s`; the empty
string splits to one empty segment, so the result is never the empty list. -/
def splitOnColon : List Char → List (List Char)
  | [] => [[]]
  | c :: cs =>
    let r := splitOnColon cs
    if c = ':' then [] :: r
    else (c :: r.headD []) :: r.tail

/-- JavaScript `s.padStart(2, '0')`. -/
def padStart2 (s : List Char) : List Char :=
  if s.length < 2 then List.replicate (2 - s.length) '0' ++ s else s

/-- JavaScript `s.padEnd(2, '0').substring(0, 2)` as used on the seconds
segment of `formatTimeString`. -/
def padEndTrunc2 (s : List Char) : List Char :=
  (s ++ List.replicate (2 - s.length) '0').take 2

/-- JavaScript `s || d` for strings: `d` when `s` is empty (falsy), else `s`. -/
def jsOr (s d : List Char) : List Char := if s.isEmpty then d else s

/-- `timeToSeconds` of `Index.tsx` (lines 52-60): split on `':'`, `parseInt`
each segment; two segments give `m*60+s`, three give `h*3600+m*60+s`, any
other segment count gives `0`.  A `NaN` segment propagates (`none`). -/
def timeToSeconds (time : List Char) : Option Nat :=
  match (splitOnColon time).map parseIntJS with
  | [some m, some s] => some (m * 60 + s)
  | [_, _] => none
  | [some h, some m, some s] => some (h * 3600 + m * 60 + s)
  | [_, _, _] => none
  | _ => some 0

/-- `formatSeconds` of `Index.tsx` (lines 63-72): `h:mm:ss` when the hour
count is positive, else `m:ss`, minutes and seconds padded to width 2. -/
def formatSeconds (totalSeconds : Nat) : List Char :=
  let hours := totalSeconds / 3600
  let minutes := totalSeconds % 3600 / 60
  let seconds := totalSeconds % 60
  if 0 < hours then
    natToString hours ++ ':' :: padStart2 (natToString minutes)
      ++ ':' :: padStart2 (natToString seconds)
  else
    natToString minutes ++ ':' :: padStart2 (natToString seconds)

/-- `parseInt` as applied inside `formatTimeString`, where every argument is a
nonempty digit string and the `NaN` case is unreachable. -/
def parseIntD (s : List Char) : Nat := (parseIntJS s).getD 0

/-- The cleaning part of `formatTimeString` of `Index.tsx` (lines 89-110):
strips every character that is not a digit or colon, normalises to
`m:ss` (at most two segments) or `h:mm:ss` (three or more segments, extra
segments discarded), and recomputes the total second count; returns the
cleaned string together with that total. -/
def formatTimeStringCore (input : List Char) : List Char × Nat :=
  let cleaned := input.filter (fun c => isDigitC c || c == ':')
  let parts := splitOnColon cleaned
  if parts.length ≤ 2 then
    let minutes := jsOr (parts.getD 0 []) ['0']
    let seconds := if parts.length > 1 then padEndTrunc2 (parts.getD 1 []) else ['0', '0']
    (minutes ++ ':' :: seconds, parseIntD minutes * 60 + parseIntD seconds)
  else
    let hours := jsOr (parts.getD 0 []) ['0']
    let minutes := jsOr (parts.getD 1 []) ['0', '0']
    let seconds := jsOr (padEndTrunc2 (parts.getD 2 [])) ['0', '0']
    (hours ++ ':' :: minutes ++ ':' :: seconds,
      parseIntD hours * 3600 + parseIntD minutes * 60 + parseIntD seconds)

/-- `formatTimeString` of `Index.tsx` (lines 89-118), the live-input
sanitizer: the cleaned string, except that when the recomputed total exceeds
a known positive `videoDuration` the canonical rendering of `videoDuration`
is returned instead. -/
def formatTimeString (input : List Char) (videoDuration : Nat) : List Char :=
  let cleaned := (formatTimeStringCore input).1
  let totalSeconds := (formatTimeStringCore input).2
  if videoDuration < totalSeconds && 0 < videoDuration then formatSeconds videoDuration
  else cleaned

/-- Match of the regex fragment `([0-5]?\d)` against a whole segment (a
maximal colon-free run): one digit, or a `[0-5]` digit followed by a digit. -/
def isMinSeg : List Char → Bool
  | [c] => isDigitC c
  | [c1, c2] => inClass05 c1 && isDigitC c2
  | _ => false

/-- Match of the regex fragment `([0-5]\d)` against a whole segment. -/
def isSecSeg : List Char → Bool
  | [c1, c2] => inClass05 c1 && isDigitC c2
  | _ => false

/-- Match of the regex fragment `\d+` against a whole segment. -/
def isHourSeg (l : List Char) : Bool := !l.isEmpty && l.all isDigitC

/-- The commit-time validation `timeRegex.test(currentTime)` of `Index.tsx`
(line 163), `timeRegex = /^(\d+:)?([0-5]?\d):([0-5]\d)$/`.  Because `\d`,
`[0-5]` and `[0-5]\d` cannot consume a colon, a match decomposes the string
exactly at its colons: two segments matching minutes and seconds, or three
segments whose first realises the optional `(\d+:)` prefix. -/
def timeRegexTest (s : List Char) : Bool :=
  match splitOnColon s with
  | [m, sec] => isMinSeg m && isSecSeg sec
  | [h, m, sec] => isHourSeg h && isMinSeg m && isSecSeg sec
  | _ => false

/-- Value of a digit string (used only to state the spec-side grammar). -/
def digitsVal (l : List Char) : Nat := parseDigitsAux l 0

/-- Modelled from the spec: minutes as 1-2 digits with value in `[0,59]`. -/
def specMin (l : List Char) : Bool :=
  (decide (1 ≤ l.length) && decide (l.length ≤ 2)) && l.all isDigitC
    && decide (digitsVal l ≤ 59)

/-- Modelled from the spec: seconds as exactly 2 digits with value in `[0,59]`. -/
def specSec (l : List Char) : Bool :=
  decide (l.length = 2) && l.all isDigitC && decide (digitsVal l ≤ 59)

/-- Modelled from the spec: an hours field of one or more digits. -/
def specHour (l : List Char) : Bool := decide (1 ≤ l.length) && l.all isDigitC

/-- Modelled from the spec: the strict commit grammar, stated with numeric
range conditions as the spec words it — an optional hours prefix (one or
more digits followed by a colon), then minutes as 1-2 digits in `[0,59]`, a
colon, then seconds as exactly 2 digits in `[0,59]`. -/
def specGrammar (s : List Char) : Bool :=
  match splitOnColon s with
  | [m, sec] => specMin m && specSec sec
  | [h, m, sec] => specHour h && specMin m && specSec sec
  | _ => false

/-- The `Timestamp` record of `Index.tsx` (lines 15-20). -/
structure Timestamp where
  id : List Char
  time : List Char
  description : List Char
  seconds : Nat
deriving DecidableEq

/-- Stable insertion of a timestamp into a list: it goes before the first
entry whose `seconds` is not smaller.  Together with `sortedView` below this
realises the ECMAScript 2019 guarantee that `Array.prototype.sort` with the
comparator `(a, b) => a.seconds - b.seconds` is a stable ascending sort. -/
def insertTs (t : Timestamp) : List Timestamp → List Timestamp
  | [] => [t]
  | u :: us => if t.seconds ≤ u.seconds then t :: u :: us else u :: insertTs t us

/-- The result of `timestamps.sort((a, b) => a.seconds - b.seconds)`
(`Index.tsx` lines 200 and 530-531): the entries in ascending `seconds`
order, ties kept in the order of the input list (stable sort). -/
def sortedView : List Timestamp → List Timestamp
  | [] => []
  | t :: ts => insertTs t (sortedView ts)

/-- JavaScript `lines.join("\n")`. -/
def joinNewline : List (List Char) → List Char
  | [] => []
  | [l] => l
  | l :: ls => l ++ '\n' :: joinNewline ls

/-- The clipboard payload built by `copyToClipboard` (`Index.tsx` lines
199-202): the sorted entries rendered as `"<time> - <description>"` lines
joined with newlines. -/
def exportText (timestamps : List Timestamp) : List Char :=
  joinNewline ((sortedView timestamps).map
    (fun t => t.time ++ ' ' :: '-' :: ' ' :: t.description))

/-- `copyToClipboard` of `Index.tsx` (lines 193-209) as a state transformer:
on an empty ledger nothing is written (`none`) and the state is untouched;
otherwise the payload is written and — because `Array.prototype.sort` sorts
the state array in place — the stored list afterwards is the sorted one. -/
def copyToClipboard (timestamps : List Timestamp) :
    List Timestamp × Option (List Char) :=
  if timestamps.isEmpty then (timestamps, none)
  else (sortedView timestamps, some (exportText timestamps))

/-- `removeTimestamp` of `Index.tsx` (lines 188-191): keeps every entry whose
`id` differs, and unconditionally emits the success notice
`"Timestamp removed"`; the boolean records that this removal report is
always issued, present id or not. -/
def removeTimestamp (timestamps : List Timestamp) (id : List Char) :
    List Timestamp × Bool :=
  (timestamps.filter (fun ts => ts.id != id), true)

/-- The component state touched by the ledger operations of `Index.tsx`. -/
structure AppState where
  metadataLoaded : Bool
  currentTime : List Char
  currentDescription : List Char
  timestamps : List Timestamp
deriving DecidableEq

/-- Initial component state: no metadata, time field `"0:00"`, empty
description, empty ledger. -/
def initState : AppState :=
  { metadataLoaded := false
    currentTime := ['0', ':', '0', '0']
    currentDescription := []
    timestamps := [] }

/-- `addTimestamp` of `Index.tsx` (lines 155-186): a no-op unless metadata is
loaded, both fields are nonempty and the strict regex accepts the time;
otherwise appends the new record — `id` from `Date.now().toString()`
(`now` is the clock reading), `seconds` derived by `timeToSeconds` (defined,
hence the `getD 0` never fires, because the regex guard passed) — and resets
the entry fields. -/
def addTimestamp (st : AppState) (now : Nat) : AppState :=
  if !st.metadataLoaded then st
  else if st.currentTime.isEmpty || st.currentDescription.isEmpty then st
  else if !timeRegexTest st.currentTime then st
  else
    { st with
      timestamps := st.timestamps ++
        [{ id := natToString now
           time := st.currentTime
           description := st.currentDescription
           seconds := (timeToSeconds st.currentTime).getD 0 }]
      currentDescription := []
      currentTime := ['0', ':', '0', '0'] }

/-- The ledger-affecting user operations of `Index.tsx`: loading a video
(`handleSubmit` success path, which clears the ledger), typing a time and a
description and committing (`addTimestamp`, with the clock value used for
the id), removing by id, and copying all (whose in-place sort rewrites the
stored order). -/
inductive LedgerOp where
  | load
  | add (time description : List Char) (now : Nat)
  | remove (id : List Char)
  | copyAll
deriving DecidableEq

/-- One user operation applied to the component state. -/
def applyOp (st : AppState) : LedgerOp → AppState
  | .load => { st with metadataLoaded := true, timestamps := [] }
  | .add time description now =>
      addTimestamp { st with currentTime := time, currentDescription := description } now
  | .remove id => { st with timestamps := (removeTimestamp st.timestamps id).1 }
  | .copyAll => { st with timestamps := (copyToClipboard st.timestamps).1 }

/-- The component state after a sequence of user operations. -/
def runOps (ops : List LedgerOp) : AppState := ops.foldl applyOp initState

/-! ### Digit characters -/

theorem digitChar_toNat {d : Nat} (h : d ≤ 9) : (digitChar d).toNat = 48 + d := by
  interval_cases d <;> decide

theorem isDigitC_digitChar {d : Nat} (h : d ≤ 9) : isDigitC (digitChar d) = true := by
  interval_cases d <;> decide

theorem inClass05_digitChar {d : Nat} (h : d ≤ 5) : inClass05 (digitChar d) = true := by
  interval_cases d <;> decide

theorem digitVal_digitChar {d : Nat} (h : d ≤ 9) : digitVal (digitChar d) = d := by
  interval_cases d <;> decide

theorem toNat_bounds_of_isDigitC {c : Char} (h : isDigitC c = true) :
    48 ≤ c.toNat ∧ c.toNat ≤ 57 := by
  simpa [isDigitC] using h

theorem ne_colon_of_isDigitC {c : Char} (h : isDigitC c = true) : c ≠ ':' := by
  intro hc
  subst hc
  simp [isDigitC] at h

theorem digitVal_le_of_isDigitC {c : Char} (h : isDigitC c = true) : digitVal c ≤ 9 := by
  have := toNat_bounds_of_isDigitC h
  unfold digitVal
  omega

/-! ### Decimal rendering -/

theorem natToStringAux_fuel_irrel :
    ∀ n f g, n < f → n < g → natToStringAux f n = natToStringAux g n := by
  intro n
  induction n using Nat.strong_induction_on with
  | _ n ih =>
    intro f g hf hg
    obtain ⟨f', rfl⟩ : ∃ k, f = k + 1 := ⟨f - 1, by omega⟩
    obtain ⟨g', rfl⟩ : ∃ k, g = k + 1 := ⟨g - 1, by omega⟩
    by_cases h10 : n < 10
    · simp [natToStringAux, h10]
    · have hdiv : n / 10 < n := Nat.div_lt_self (by omega) (by omega)
      simp only [natToStringAux, if_neg h10]
      rw [ih (n / 10) hdiv f' g' (by omega) (by omega)]

theorem natToString_lt10 {n : Nat} (h : n < 10) : natToString n = [digitChar n] := by
  simp [natToString, natToStringAux, h]

theorem natToString_ge10 {n : Nat} (h : 10 ≤ n) :
    natToString n = natToString (n / 10) ++ [digitChar (n % 10)] := by
  have hdiv : n / 10 < n := Nat.div_lt_self (by omega) (by omega)
  have e1 : natToStringAux (n + 1) n = natToStringAux n (n / 10) ++ [digitChar (n % 10)] := by
    simp only [natToStringAux, if_neg (show ¬ n < 10 by omega)]
  unfold natToString
  rw [e1, natToStringAux_fuel_irrel (n / 10) n (n / 10 + 1) hdiv (Nat.lt_succ_self _)]

theorem natToString_ne_nil (n : Nat) : natToString n ≠ [] := by
  induction n using Nat.strong_induction_on with
  | _ n ih =>
    by_cases h : n < 10
    · rw [natToString_lt10 h]; simp
    · rw [natToString_ge10 (by omega)]; simp

theorem natToString_all_digits (n : Nat) : (natToString n).all isDigitC = true := by
  induction n using Nat.strong_induction_on with
  | _ n ih =>
    by_cases h : n < 10
    · rw [natToString_lt10 h]
      simp [isDigitC_digitChar (by omega : n ≤ 9)]
    · rw [natToString_ge10 (by omega)]
      have hdiv : n / 10 < n := Nat.div_lt_self (by omega) (by omega)
      simp only [List.all_append, Bool.and_eq_true]
      refine ⟨ih (n / 10) hdiv, ?_⟩
      simp [isDigitC_digitChar (by omega : n % 10 ≤ 9)]

/-! ### Parsing digit strings -/

theorem parseDigitsAux_append {l1 : List Char} (h : l1.all isDigitC = true) :
    ∀ l2 acc, parseDigitsAux (l1 ++ l2) acc = parseDigitsAux l2 (parseDigitsAux l1 acc) := by
  induction l1 with
  | nil => intro l2 acc; rfl
  | cons c cs ih =>
    intro l2 acc
    simp only [List.all_cons, Bool.and_eq_true] at h
    simp only [List.cons_append, parseDigitsAux, if_pos h.1]
    exact ih h.2 l2 _

theorem parseDigitsAux_natToString (n : Nat) :
    ∀ acc, parseDigitsAux (natToString n) acc = acc * 10 ^ (natToString n).length + n := by
  induction n using Nat.strong_induction_on with
  | _ n ih =>
    intro acc
    by_cases h10 : n < 10
    · rw [natToString_lt10 h10]
      simp [parseDigitsAux, isDigitC_digitChar (show n ≤ 9 by omega),
        digitVal_digitChar (show n ≤ 9 by omega)]
    · have hdiv : n / 10 < n := Nat.div_lt_self (by omega) (by omega)
      rw [natToString_ge10 (by omega)]
      rw [parseDigitsAux_append (natToString_all_digits _)]
      rw [ih (n / 10) hdiv acc]
      simp only [parseDigitsAux, isDigitC_digitChar (show n % 10 ≤ 9 by omega), if_pos,
        digitVal_digitChar (show n % 10 ≤ 9 by omega)]
      rw [List.length_append]
      simp only [List.length_cons, List.length_nil, Nat.zero_add]
      have expand : acc * 10 ^ ((natToString (n / 10)).length + 1)
          = acc * 10 ^ (natToString (n / 10)).length * 10 := by ring
      rw [expand]
      omega

theorem parseIntJS_of_digits {l : List Char} (hne : l ≠ [])
    (hd : l.all isDigitC = true) : parseIntJS l = some (digitsVal l) := by
  match l, hne with
  | c :: cs, _ =>
    simp only [List.all_cons, Bool.and_eq_true] at hd
    simp [parseIntJS, if_pos hd.1, digitsVal]

theorem digitsVal_natToString (n : Nat) : digitsVal (natToString n) = n := by
  unfold digitsVal
  rw [parseDigitsAux_natToString]
  simp

theorem parseIntJS_natToString (n : Nat) : parseIntJS (natToString n) = some n := by
  rw [parseIntJS_of_digits (natToString_ne_nil n) (natToString_all_digits n),
    digitsVal_natToString]

theorem replicate_zero_all_digits (k : Nat) :
    (List.replicate k '0').all isDigitC = true := by
  simp only [List.all_eq_true]
  intro c hc
  rw [List.eq_of_mem_replicate hc]
  decide

theorem parseDigitsAux_replicate_zero (k : Nat) :
    parseDigitsAux (List.replicate k '0') 0 = 0 := by
  induction k with
  | zero => rfl
  | succ k ih =>
    rw [List.replicate_succ]
    simp only [parseDigitsAux, if_pos (show isDigitC '0' = true by decide)]
    have h0 : 0 * 10 + digitVal '0' = 0 := by decide
    rw [h0]
    exact ih

theorem digitsVal_padStart2 (l : List Char) :
    digitsVal (padStart2 l) = digitsVal l := by
  unfold padStart2
  by_cases hl : l.length < 2
  · simp only [if_pos hl, digitsVal]
    rw [parseDigitsAux_append (replicate_zero_all_digits _),
      parseDigitsAux_replicate_zero]
  · simp [if_neg hl]

theorem padStart2_all_digits {l : List Char} (h : l.all isDigitC = true) :
    (padStart2 l).all isDigitC = true := by
  unfold padStart2
  by_cases hl : l.length < 2
  · simp only [if_pos hl, List.all_append, Bool.and_eq_true]
    exact ⟨replicate_zero_all_digits _, h⟩
  · simpa [if_neg hl] using h

theorem padStart2_ne_nil {l : List Char} (h : l ≠ []) : padStart2 l ≠ [] := by
  unfold padStart2
  by_cases hl : l.length < 2 <;> simp [hl, h]

/-! ### Splitting on colons -/

theorem splitOnColon_ne_nil (s : List Char) : splitOnColon s ≠ [] := by
  cases s with
  | nil => simp [splitOnColon]
  | cons c cs =>
    simp only [splitOnColon]
    by_cases h : c = ':' <;> simp [h]

theorem splitOnColon_no_colon {a : List Char} (h : ∀ c ∈ a, c ≠ ':') :
    splitOnColon a = [a] := by
  induction a with
  | nil => rfl
  | cons c cs ih =>
    have hc : c ≠ ':' := h c (by simp)
    have ihcs := ih (fun x hx => h x (by simp [hx]))
    simp [splitOnColon, hc, ihcs]

theorem splitOnColon_append {a : List Char} (h : ∀ c ∈ a, c ≠ ':') :
    ∀ rest, splitOnColon (a ++ ':' :: rest) = a :: splitOnColon rest := by
  induction a with
  | nil => intro rest; simp [splitOnColon]
  | cons c cs ih =>
    intro rest
    have hc : c ≠ ':' := h c (by simp)
    have ihcs := ih (fun x hx => h x (by simp [hx])) rest
    simp [splitOnColon, hc, ihcs]

theorem no_colon_of_all_digits {l : List Char} (h : l.all isDigitC = true) :
    ∀ c ∈ l, c ≠ ':' := by
  intro c hc
  exact ne_colon_of_isDigitC (by simpa using List.all_eq_true.mp h c hc)

theorem splitOnColon_two {a b : List Char} (ha : a.all isDigitC = true)
    (hb : b.all isDigitC = true) :
    splitOnColon (a ++ ':' :: b) = [a, b] := by
  rw [splitOnColon_append (no_colon_of_all_digits ha),
    splitOnColon_no_colon (no_colon_of_all_digits hb)]

theorem splitOnColon_three {a b c : List Char} (ha : a.all isDigitC = true)
    (hb : b.all isDigitC = true) (hc : c.all isDigitC = true) :
    splitOnColon (a ++ ':' :: b ++ ':' :: c) = [a, b, c] := by
  rw [show a ++ ':' :: b ++ ':' :: c = a ++ ':' :: (b ++ ':' :: c) by simp,
    splitOnColon_append (no_colon_of_all_digits ha), splitOnColon_two hb hc]

/-! ### Parsing whole time strings -/

theorem timeToSeconds_two {a b : List Char} (hane : a ≠ []) (ha : a.all isDigitC = true)
    (hbne : b ≠ []) (hb : b.all isDigitC = true) :
    timeToSeconds (a ++ ':' :: b) = some (digitsVal a * 60 + digitsVal b) := by
  unfold timeToSeconds
  rw [splitOnColon_two ha hb]
  simp [parseIntJS_of_digits hane ha, parseIntJS_of_digits hbne hb]

theorem timeToSeconds_three {a b c : List Char} (hane : a ≠ [])
    (ha : a.all isDigitC = true) (hbne : b ≠ []) (hb : b.all isDigitC = true)
    (hcne : c ≠ []) (hc : c.all isDigitC = true) :
    timeToSeconds (a ++ ':' :: b ++ ':' :: c)
      = some (digitsVal a * 3600 + digitsVal b * 60 + digitsVal c) := by
  unfold timeToSeconds
  rw [splitOnColon_three ha hb hc]
  simp [parseIntJS_of_digits hane ha, parseIntJS_of_digits hbne hb,
    parseIntJS_of_digits hcne hc]

theorem timeToSeconds_formatSeconds (n : Nat) :
    timeToSeconds (formatSeconds n) = some n := by
  unfold formatSeconds
  by_cases hh : 0 < n / 3600
  · simp only [if_pos hh]
    rw [timeToSeconds_three (natToString_ne_nil _) (natToString_all_digits _)
      (padStart2_ne_nil (natToString_ne_nil _)) (padStart2_all_digits (natToString_all_digits _))
      (padStart2_ne_nil (natToString_ne_nil _)) (padStart2_all_digits (natToString_all_digits _))]
    rw [digitsVal_natToString, digitsVal_padStart2, digitsVal_padStart2,
      digitsVal_natToString, digitsVal_natToString]
    simp only [Option.some.injEq]
    omega
  · simp only [if_neg hh]
    rw [timeToSeconds_two (natToString_ne_nil _) (natToString_all_digits _)
      (padStart2_ne_nil (natToString_ne_nil _)) (padStart2_all_digits (natToString_all_digits _))]
    rw [digitsVal_natToString, digitsVal_padStart2, digitsVal_natToString]
    simp only [Option.some.injEq]
    omega

/-! ### Segment classes -/

theorem isDigitC_of_inClass05 {c : Char} (h : inClass05 c = true) : isDigitC c = true := by
  simp only [inClass05, Bool.and_eq_true, decide_eq_true_eq] at h
  simp only [isDigitC, Bool.and_eq_true, decide_eq_true_eq]
  omega

theorem natToString_two_digits {n : Nat} (h1 : 10 ≤ n) (h2 : n < 100) :
    natToString n = [digitChar (n / 10), digitChar (n % 10)] := by
  rw [natToString_ge10 h1, natToString_lt10 (by omega : n / 10 < 10)]
  rfl

theorem padStart2_singleton (c : Char) : padStart2 [c] = ['0', c] := by
  simp [padStart2, List.replicate]

theorem padStart2_pair (c1 c2 : Char) : padStart2 [c1, c2] = [c1, c2] := by
  simp [padStart2]

theorem isMinSeg_natToString {m : Nat} (h : m ≤ 59) :
    isMinSeg (natToString m) = true := by
  by_cases h10 : m < 10
  · rw [natToString_lt10 h10]
    simp [isMinSeg, isDigitC_digitChar (show m ≤ 9 by omega)]
  · rw [natToString_two_digits (by omega) (by omega)]
    simp [isMinSeg, inClass05_digitChar (show m / 10 ≤ 5 by omega),
      isDigitC_digitChar (show m % 10 ≤ 9 by omega)]

theorem isSecSeg_padStart2_natToString {m : Nat} (h : m ≤ 59) :
    isSecSeg (padStart2 (natToString m)) = true := by
  by_cases h10 : m < 10
  · rw [natToString_lt10 h10, padStart2_singleton]
    simp [isSecSeg, inClass05, isDigitC_digitChar (show m ≤ 9 by omega)]
  · rw [natToString_two_digits (by omega) (by omega), padStart2_pair]
    simp [isSecSeg, inClass05_digitChar (show m / 10 ≤ 5 by omega),
      isDigitC_digitChar (show m % 10 ≤ 9 by omega)]

theorem isMinSeg_padStart2_natToString {m : Nat} (h : m ≤ 59) :
    isMinSeg (padStart2 (natToString m)) = true := by
  by_cases h10 : m < 10
  · rw [natToString_lt10 h10, padStart2_singleton]
    simp [isMinSeg, inClass05, isDigitC_digitChar (show m ≤ 9 by omega)]
  · rw [natToString_two_digits (by omega) (by omega), padStart2_pair]
    simp [isMinSeg, inClass05_digitChar (show m / 10 ≤ 5 by omega),
      isDigitC_digitChar (show m % 10 ≤ 9 by omega)]

theorem isHourSeg_natToString (n : Nat) : isHourSeg (natToString n) = true := by
  simp only [isHourSeg, Bool.and_eq_true, Bool.not_eq_true']
  refine ⟨?_, natToString_all_digits n⟩
  simpa [List.isEmpty_iff] using natToString_ne_nil n

theorem timeRegexTest_formatSeconds (n : Nat) :
    timeRegexTest (formatSeconds n) = true := by
  simp only [formatSeconds, timeRegexTest]
  by_cases hh : 0 < n / 3600
  · simp only [if_pos hh,
      splitOnColon_three (natToString_all_digits _)
        (padStart2_all_digits (natToString_all_digits _))
        (padStart2_all_digits (natToString_all_digits _))]
    simp [isHourSeg_natToString,
      isMinSeg_padStart2_natToString (show n % 3600 / 60 ≤ 59 by omega),
      isSecSeg_padStart2_natToString (show n % 60 ≤ 59 by omega)]
  · simp only [if_neg hh,
      splitOnColon_two (natToString_all_digits _)
        (padStart2_all_digits (natToString_all_digits _))]
    simp [isMinSeg_natToString (show n % 3600 / 60 ≤ 59 by omega),
      isSecSeg_padStart2_natToString (show n % 60 ≤ 59 by omega)]

/-! ### The code regex agrees with the spec grammar -/

theorem isMinSeg_eq_specMin (l : List Char) : isMinSeg l = specMin l := by
  match l with
  | [] => decide
  | [c] =>
    by_cases hc : isDigitC c = true
    · have hv : digitVal c ≤ 9 := digitVal_le_of_isDigitC hc
      simp [isMinSeg, specMin, digitsVal, parseDigitsAux, hc]
      omega
    · simp [isMinSeg, specMin, Bool.eq_false_iff.mpr hc,
        show isDigitC c = false from Bool.eq_false_iff.mpr hc]
  | [c1, c2] =>
    by_cases hc1 : isDigitC c1 = true
    · by_cases hc2 : isDigitC c2 = true
      · have h1 := toNat_bounds_of_isDigitC hc1
        have h2 := toNat_bounds_of_isDigitC hc2
        have e : digitsVal [c1, c2] = 10 * digitVal c1 + digitVal c2 := by
          simp [digitsVal, parseDigitsAux, hc1, hc2]
          ring
        simp only [isMinSeg, specMin, hc1, hc2, e, List.all_cons, List.all_nil,
          List.length_cons, List.length_nil, Bool.and_true, Bool.true_and]
        have hlen : ((decide (1 ≤ 0 + 1 + 1) && decide (0 + 1 + 1 ≤ 2)) = true) := by decide
        rw [hlen, Bool.true_and, inClass05, ← Bool.decide_and]
        exact decide_eq_decide.mpr (by unfold digitVal; omega)
      · simp [isMinSeg, specMin, show isDigitC c2 = false from Bool.eq_false_iff.mpr hc2]
    · have h05 : inClass05 c1 = false := by
        rcases h : inClass05 c1 with - | -
        · rfl
        · exact absurd (isDigitC_of_inClass05 h) hc1
      simp [isMinSeg, specMin, h05, show isDigitC c1 = false from Bool.eq_false_iff.mpr hc1]
  | c1 :: c2 :: c3 :: rest =>
    simp [isMinSeg, specMin, show ¬((c1 :: c2 :: c3 :: rest).length ≤ 2) by simp]

theorem isSecSeg_eq_specSec (l : List Char) : isSecSeg l = specSec l := by
  match l with
  | [] => decide
  | [c] => simp [isSecSeg, specSec]
  | [c1, c2] =>
    by_cases hc1 : isDigitC c1 = true
    · by_cases hc2 : isDigitC c2 = true
      · have h1 := toNat_bounds_of_isDigitC hc1
        have h2 := toNat_bounds_of_isDigitC hc2
        have e : digitsVal [c1, c2] = 10 * digitVal c1 + digitVal c2 := by
          simp [digitsVal, parseDigitsAux, hc1, hc2]
          ring
        simp only [isSecSeg, specSec, hc1, hc2, e, List.all_cons, List.all_nil,
          List.length_cons, List.length_nil, Bool.and_true, Bool.true_and]
        rw [decide_True, Bool.true_and, inClass05, ← Bool.decide_and]
        exact decide_eq_decide.mpr (by unfold digitVal; omega)
      · simp [isSecSeg, specSec, show isDigitC c2 = false from Bool.eq_false_iff.mpr hc2]
    · have h05 : inClass05 c1 = false := by
        rcases h : inClass05 c1 with - | -
        · rfl
        · exact absurd (isDigitC_of_inClass05 h) hc1
      simp [isSecSeg, specSec, h05, show isDigitC c1 = false from Bool.eq_false_iff.mpr hc1]
  | c1 :: c2 :: c3 :: rest =>
    simp [isSecSeg, specSec, show ¬((c1 :: c2 :: c3 :: rest).length = 2) by simp]

theorem isHourSeg_eq_specHour (l : List Char) : isHourSeg l = specHour l := by
  cases l with
  | nil => decide
  | cons c cs => simp [isHourSeg, specHour]

/-! ### The sanitizer's output parses back to its recomputed total -/

theorem splitOnColon_all_digits {s : List Char}
    (h : ∀ c ∈ s, isDigitC c = true ∨ c = ':') :
    ∀ seg ∈ splitOnColon s, seg.all isDigitC = true := by
  induction s with
  | nil =>
    intro seg hseg
    simp only [splitOnColon, List.mem_singleton] at hseg
    subst hseg
    rfl
  | cons c cs ih =>
    have hcs : ∀ x ∈ cs, isDigitC x = true ∨ x = ':' := fun x hx => h x (by simp [hx])
    obtain ⟨t, ts, hr⟩ := List.exists_cons_of_ne_nil (splitOnColon_ne_nil cs)
    intro seg hseg
    by_cases hc : c = ':'
    · simp only [splitOnColon, if_pos hc] at hseg
      rcases List.mem_cons.mp hseg with h1 | h2
      · subst h1; rfl
      · exact ih hcs seg h2
    · have hcd : isDigitC c = true := by
        rcases h c (by simp) with h1 | h1
        · exact h1
        · exact absurd h1 hc
      simp only [splitOnColon, if_neg hc, hr, List.headD_cons, List.tail_cons] at hseg
      rcases List.mem_cons.mp hseg with h1 | h2
      · subst h1
        simp only [List.all_cons, Bool.and_eq_true]
        exact ⟨hcd, ih hcs t (by simp [hr])⟩
      · exact ih hcs seg (by simp [hr, h2])

theorem all_digits_jsOr {s d : List Char} (hs : s.all isDigitC = true)
    (hd : d.all isDigitC = true) : (jsOr s d).all isDigitC = true := by
  unfold jsOr
  by_cases h : s.isEmpty <;> simp [h, hs, hd]

theorem jsOr_ne_nil {s d : List Char} (hd : d ≠ []) : jsOr s d ≠ [] := by
  unfold jsOr
  by_cases h : s.isEmpty = true
  · simp [h, hd]
  · simp only [h, if_neg]
    simpa [List.isEmpty_iff] using h

theorem padEndTrunc2_all_digits {s : List Char} (hs : s.all isDigitC = true) :
    (padEndTrunc2 s).all isDigitC = true := by
  simp only [padEndTrunc2, List.all_eq_true]
  intro c hc
  have hc2 := (List.take_sublist 2 _).subset hc
  rcases List.mem_append.mp hc2 with h1 | h2
  · exact List.all_eq_true.mp hs c h1
  · rw [List.eq_of_mem_replicate h2]
    decide

theorem padEndTrunc2_ne_nil (s : List Char) : padEndTrunc2 s ≠ [] := by
  apply List.ne_nil_of_length_pos
  simp only [padEndTrunc2, List.length_take, List.length_append, List.length_replicate]
  omega

theorem parseIntD_of_digits {l : List Char} (hne : l ≠ [])
    (hd : l.all isDigitC = true) : parseIntD l = digitsVal l := by
  unfold parseIntD
  rw [parseIntJS_of_digits hne hd]
  rfl

theorem timeToSeconds_pair_parseIntD {m s : List Char} (hm : m ≠ [])
    (hmd : m.all isDigitC = true) (hs : s ≠ []) (hsd : s.all isDigitC = true) :
    timeToSeconds (m ++ ':' :: s) = some (parseIntD m * 60 + parseIntD s) := by
  rw [timeToSeconds_two hm hmd hs hsd, parseIntD_of_digits hm hmd,
    parseIntD_of_digits hs hsd]

theorem timeToSeconds_triple_parseIntD {h m s : List Char} (hh : h ≠ [])
    (hhd : h.all isDigitC = true) (hm : m ≠ []) (hmd : m.all isDigitC = true)
    (hs : s ≠ []) (hsd : s.all isDigitC = true) :
    timeToSeconds (h ++ ':' :: m ++ ':' :: s)
      = some (parseIntD h * 3600 + parseIntD m * 60 + parseIntD s) := by
  rw [timeToSeconds_three hh hhd hm hmd hs hsd, parseIntD_of_digits hh hhd,
    parseIntD_of_digits hm hmd, parseIntD_of_digits hs hsd]

theorem formatTimeStringCore_parse (input : List Char) :
    timeToSeconds (formatTimeStringCore input).1
      = some (formatTimeStringCore input).2 := by
  simp only [formatTimeStringCore]
  have hmem : ∀ c ∈ input.filter (fun c => isDigitC c || c == ':'),
      isDigitC c = true ∨ c = ':' := by
    intro c hc
    have h2 := List.of_mem_filter hc
    simpa using h2
  have hall := splitOnColon_all_digits hmem
  cases hsplit : splitOnColon (input.filter (fun c => isDigitC c || c == ':')) with
  | nil => exact absurd hsplit (splitOnColon_ne_nil _)
  | cons p0 rest0 =>
    have hp0 : p0.all isDigitC = true := hall p0 (by rw [hsplit]; simp)
    cases rest0 with
    | nil =>
      show timeToSeconds (jsOr p0 ['0'] ++ ':' :: ['0', '0'])
        = some (parseIntD (jsOr p0 ['0']) * 60 + parseIntD ['0', '0'])
      exact timeToSeconds_pair_parseIntD (jsOr_ne_nil (by simp))
        (all_digits_jsOr hp0 (by decide)) (by simp) (by decide)
    | cons p1 rest1 =>
      have hp1 : p1.all isDigitC = true := hall p1 (by rw [hsplit]; simp)
      cases rest1 with
      | nil =>
        show timeToSeconds (jsOr p0 ['0'] ++ ':' :: padEndTrunc2 p1)
          = some (parseIntD (jsOr p0 ['0']) * 60 + parseIntD (padEndTrunc2 p1))
        exact timeToSeconds_pair_parseIntD (jsOr_ne_nil (by simp))
          (all_digits_jsOr hp0 (by decide)) (padEndTrunc2_ne_nil p1)
          (padEndTrunc2_all_digits hp1)
      | cons p2 rest2 =>
        have hp2 : p2.all isDigitC = true := hall p2 (by rw [hsplit]; simp)
        rw [if_neg (show ¬((p0 :: p1 :: p2 :: rest2).length ≤ 2) by simp)]
        show timeToSeconds (jsOr p0 ['0'] ++ ':' :: jsOr p1 ['0', '0']
            ++ ':' :: jsOr (padEndTrunc2 p2) ['0', '0'])
          = some (parseIntD (jsOr p0 ['0']) * 3600 + parseIntD (jsOr p1 ['0', '0']) * 60
            + parseIntD (jsOr (padEndTrunc2 p2) ['0', '0']))
        exact timeToSeconds_triple_parseIntD (jsOr_ne_nil (by simp))
          (all_digits_jsOr hp0 (by decide)) (jsOr_ne_nil (by simp))
          (all_digits_jsOr hp1 (by decide)) (jsOr_ne_nil (by simp))
          (all_digits_jsOr (padEndTrunc2_all_digits hp2) (by decide))

/-! ### The stable sort -/

theorem insertTs_perm (t : Timestamp) (l : List Timestamp) :
    List.Perm (insertTs t l) (t :: l) := by
  induction l with
  | nil => exact List.Perm.refl _
  | cons u us ih =>
    unfold insertTs
    by_cases h : t.seconds ≤ u.seconds
    · simp only [if_pos h]
      exact List.Perm.refl _
    · simp only [if_neg h]
      exact (ih.cons u).trans (List.Perm.swap t u us)

theorem sortedView_perm (l : List Timestamp) : List.Perm (sortedView l) l := by
  induction l with
  | nil => exact List.Perm.refl _
  | cons t ts ih => exact (insertTs_perm t (sortedView ts)).trans (ih.cons t)

theorem mem_insertTs {x t : Timestamp} {l : List Timestamp} :
    x ∈ insertTs t l ↔ x = t ∨ x ∈ l := by
  rw [(insertTs_perm t l).mem_iff]
  simp

theorem insertTs_sorted {t : Timestamp} {l : List Timestamp}
    (hl : l.Pairwise (fun a b => a.seconds ≤ b.seconds)) :
    (insertTs t l).Pairwise (fun a b => a.seconds ≤ b.seconds) := by
  induction l with
  | nil => simp [insertTs]
  | cons u us ih =>
    rcases List.pairwise_cons.mp hl with ⟨hu, hus⟩
    unfold insertTs
    by_cases h : t.seconds ≤ u.seconds
    · simp only [if_pos h]
      refine List.pairwise_cons.mpr ⟨?_, hl⟩
      intro x hx
      rcases List.mem_cons.mp hx with h1 | h2
      · subst h1; exact h
      · exact le_trans h (hu x h2)
    · simp only [if_neg h]
      refine List.pairwise_cons.mpr ⟨?_, ih hus⟩
      intro x hx
      rcases mem_insertTs.mp hx with h1 | h2
      · subst h1; omega
      · exact hu x h2

theorem sortedView_sorted (l : List Timestamp) :
    (sortedView l).Pairwise (fun a b => a.seconds ≤ b.seconds) := by
  induction l with
  | nil => simp [sortedView]
  | cons t ts ih => exact insertTs_sorted ih

theorem filter_insertTs_pos {t : Timestamp} {k : Nat} (ht : t.seconds = k) :
    ∀ l : List Timestamp, (insertTs t l).filter (fun u => u.seconds == k)
      = t :: l.filter (fun u => u.seconds == k) := by
  intro l
  induction l with
  | nil => simp [insertTs, List.filter, ht]
  | cons u us ih =>
    unfold insertTs
    by_cases h : t.seconds ≤ u.seconds
    · simp only [if_pos h]
      rw [List.filter_cons, if_pos (by simp [ht])]
    · have hu : (u.seconds == k) = false := by
        simp only [beq_eq_false_iff_ne, ne_eq]
        omega
      simp only [if_neg h]
      rw [List.filter_cons, if_neg (by simp [hu]), ih,
        List.filter_cons, if_neg (by simp [hu])]

theorem filter_insertTs_neg {t : Timestamp} {k : Nat} (ht : ¬ t.seconds = k) :
    ∀ l : List Timestamp, (insertTs t l).filter (fun u => u.seconds == k)
      = l.filter (fun u => u.seconds == k) := by
  intro l
  have htb : (t.seconds == k) = false := by simp [ht]
  induction l with
  | nil => simp [insertTs, List.filter, htb]
  | cons u us ih =>
    unfold insertTs
    by_cases h : t.seconds ≤ u.seconds
    · simp only [if_pos h]
      rw [List.filter_cons, if_neg (by simp [htb])]
    · simp only [if_neg h]
      rw [List.filter_cons, ih, List.filter_cons]

theorem sortedView_stable (l : List Timestamp) (k : Nat) :
    (sortedView l).filter (fun u => u.seconds == k)
      = l.filter (fun u => u.seconds == k) := by
  induction l with
  | nil => rfl
  | cons t ts ih =>
    show (insertTs t (sortedView ts)).filter (fun u => u.seconds == k) = _
    by_cases ht : t.seconds = k
    · rw [filter_insertTs_pos ht, ih, List.filter_cons, if_pos (by simp [ht])]
    · rw [filter_insertTs_neg ht, ih, List.filter_cons,
        if_neg (by simp [ht])]

/-! ### A regex-accepted time string parses to a defined value -/

theorem isMinSeg_digits {l : List Char} (h : isMinSeg l = true) :
    l ≠ [] ∧ l.all isDigitC = true := by
  match l with
  | [] => simp [isMinSeg] at h
  | [c] =>
    simp only [isMinSeg] at h
    exact ⟨by simp, by simp [h]⟩
  | [c1, c2] =>
    simp only [isMinSeg, Bool.and_eq_true] at h
    exact ⟨by simp, by simp [isDigitC_of_inClass05 h.1, h.2]⟩
  | c1 :: c2 :: c3 :: rest => simp [isMinSeg] at h

theorem isSecSeg_digits {l : List Char} (h : isSecSeg l = true) :
    l ≠ [] ∧ l.all isDigitC = true := by
  match l with
  | [] => simp [isSecSeg] at h
  | [c] => simp [isSecSeg] at h
  | [c1, c2] =>
    simp only [isSecSeg, Bool.and_eq_true] at h
    exact ⟨by simp, by simp [isDigitC_of_inClass05 h.1, h.2]⟩
  | c1 :: c2 :: c3 :: rest => simp [isSecSeg] at h

theorem isHourSeg_digits {l : List Char} (h : isHourSeg l = true) :
    l ≠ [] ∧ l.all isDigitC = true := by
  simp only [isHourSeg, Bool.and_eq_true, Bool.not_eq_true'] at h
  exact ⟨by simpa [List.isEmpty_iff] using h.1, h.2⟩

theorem timeToSeconds_some_of_regex {s : List Char} (h : timeRegexTest s = true) :
    ∃ n, timeToSeconds s = some n := by
  unfold timeRegexTest at h
  unfold timeToSeconds
  cases hsplit : splitOnColon s with
  | nil => rw [hsplit] at h; simp at h
  | cons p0 rest0 =>
    rw [hsplit] at h
    cases rest0 with
    | nil => simp at h
    | cons p1 rest1 =>
      cases rest1 with
      | nil =>
        simp only [Bool.and_eq_true] at h
        obtain ⟨h0ne, h0d⟩ := isMinSeg_digits h.1
        obtain ⟨h1ne, h1d⟩ := isSecSeg_digits h.2
        simp only [List.map]
        rw [parseIntJS_of_digits h0ne h0d, parseIntJS_of_digits h1ne h1d]
        exact ⟨_, rfl⟩
      | cons p2 rest2 =>
        cases rest2 with
        | nil =>
          simp only [Bool.and_eq_true] at h
          obtain ⟨⟨hh0, hh1⟩, hh2⟩ := h
          obtain ⟨h0ne, h0d⟩ := isHourSeg_digits hh0
          obtain ⟨h1ne, h1d⟩ := isMinSeg_digits hh1
          obtain ⟨h2ne, h2d⟩ := isSecSeg_digits hh2
          simp only [List.map]
          rw [parseIntJS_of_digits h0ne h0d, parseIntJS_of_digits h1ne h1d,
            parseIntJS_of_digits h2ne h2d]
          exact ⟨_, rfl⟩
        | cons p3 rest3 => simp at h

/-! ### The ledger invariant: stored seconds match the stored time string -/

theorem addTimestamp_inv {st : AppState} {now : Nat}
    (h : ∀ t ∈ st.timestamps, timeToSeconds t.time = some t.seconds) :
    ∀ t ∈ (addTimestamp st now).timestamps,
      timeToSeconds t.time = some t.seconds := by
  intro t ht
  unfold addTimestamp at ht
  split at ht
  · exact h t ht
  · split at ht
    · exact h t ht
    · split at ht
      · exact h t ht
      · rename_i hre
        have hre' : timeRegexTest st.currentTime = true := by
          simp only [Bool.not_eq_true', Bool.not_eq_false] at hre
          exact hre
        simp only [List.mem_append, List.mem_singleton] at ht
        rcases ht with hold | hnew
        · exact h t hold
        · obtain ⟨n, hn⟩ := timeToSeconds_some_of_regex hre'
          subst hnew
          simp only [hn, Option.getD_some]

theorem applyOp_inv {st : AppState} {op : LedgerOp}
    (h : ∀ t ∈ st.timestamps, timeToSeconds t.time = some t.seconds) :
    ∀ t ∈ (applyOp st op).timestamps, timeToSeconds t.time = some t.seconds := by
  cases op with
  | load =>
    intro t ht
    simp [applyOp] at ht
  | add time description now => exact addTimestamp_inv h
  | remove id =>
    intro t ht
    simp only [applyOp, removeTimestamp] at ht
    exact h t (List.mem_of_mem_filter ht)
  | copyAll =>
    intro t ht
    simp only [applyOp, copyToClipboard] at ht
    split at ht
    · exact h t ht
    · exact h t ((sortedView_perm st.timestamps).mem_iff.mp ht)

theorem foldl_applyOp_inv :
    ∀ (ops : List LedgerOp) (st : AppState),
      (∀ t ∈ st.timestamps, timeToSeconds t.time = some t.seconds) →
      ∀ t ∈ (ops.foldl applyOp st).timestamps,
        timeToSeconds t.time = some t.seconds := by
  intro ops
  induction ops with
  | nil => intro st h; exact h
  | cons op ops ih =>
    intro st h
    exact ih (applyOp st op) (applyOp_inv h)

/-! ### Claim theorems -/

/-- C1: for every integer `s` in `[0, 359999]`, formatting with the canonical
formatter `formatSeconds` (`m:ss` below 3600 seconds, `h:mm:ss` otherwise,
minutes and seconds zero-padded to width 2) and parsing back with
`timeToSeconds` yields the same integer. -/
theorem c1_format_parse_round_trip (s : Nat) (_h : s ≤ 359999) :
    timeToSeconds (formatSeconds s) = some s :=
  timeToSeconds_formatSeconds s

/-- Witness for C1 at the upper boundary `s = 359999` (`"99:59:59"`). -/
theorem c1_format_parse_round_trip_witness :
    359999 ≤ 359999 ∧ timeToSeconds (formatSeconds 359999) = some 359999 :=
  ⟨by decide, c1_format_parse_round_trip 359999 (by decide)⟩

/-- C2: for every input string and every `durationSeconds > 0`, the sanitized
live input parses to a defined second count that never exceeds the duration
(the clamp returns the canonical rendering of the duration itself); and with
`durationSeconds = 0` no clamping happens — the cleaned string is returned
unchanged, however large the time it encodes. -/
theorem c2_sanitize_clamp (input : List Char) (durationSeconds : Nat) :
    (0 < durationSeconds →
      ∃ n, timeToSeconds (formatTimeString input durationSeconds) = some n
        ∧ n ≤ durationSeconds)
    ∧ formatTimeString input 0 = (formatTimeStringCore input).1 := by
  constructor
  · intro hd
    simp only [formatTimeString]
    by_cases hclamp : durationSeconds < (formatTimeStringCore input).2
    · rw [if_pos (by simp [hclamp, hd])]
      exact ⟨durationSeconds, timeToSeconds_formatSeconds durationSeconds, le_refl _⟩
    · rw [if_neg (by simp [hclamp])]
      exact ⟨(formatTimeStringCore input).2, formatTimeStringCore_parse input,
        by omega⟩
  · simp [formatTimeString]

/-- Witness for C2: the typed input `"99:99"` (5999 seconds) against a 5-second
video is clamped below the duration, and with unknown duration `0` the typed
input `"9:99"` is returned merely cleaned. -/
theorem c2_sanitize_clamp_witness :
    (∃ n, timeToSeconds (formatTimeString ("99:99".toList) 5) = some n ∧ n ≤ 5)
    ∧ formatTimeString ("9:99".toList) 0 = (formatTimeStringCore ("9:99".toList)).1 :=
  ⟨(c2_sanitize_clamp ("99:99".toList) 5).1 (by decide),
   (c2_sanitize_clamp ("9:99".toList) 0).2⟩

/-- C3: the strict commit-time check `timeRegexTest` accepts exactly the
strings of the spec grammar `specGrammar` — an optional hours prefix (one or
more digits and a colon), minutes as 1-2 digits valued in `[0,59]`, a colon,
seconds as exactly 2 digits valued in `[0,59]` — and in particular rejects
`"60:00"` and `"1:2"` while accepting `"12:34"` and `"1:12:34"`. -/
theorem c3_strict_commit_grammar :
    (∀ s : List Char, timeRegexTest s = specGrammar s)
    ∧ timeRegexTest ("60:00".toList) = false
    ∧ timeRegexTest ("1:2".toList) = false
    ∧ timeRegexTest ("12:34".toList) = true
    ∧ timeRegexTest ("1:12:34".toList) = true := by
  refine ⟨?_, by decide, by decide, by decide, by decide⟩
  intro s
  unfold timeRegexTest specGrammar
  cases splitOnColon s with
  | nil => rfl
  | cons p0 r0 =>
    cases r0 with
    | nil => rfl
    | cons p1 r1 =>
      cases r1 with
      | nil =>
        show (isMinSeg p0 && isSecSeg p1) = (specMin p0 && specSec p1)
        rw [isMinSeg_eq_specMin, isSecSeg_eq_specSec]
      | cons p2 r2 =>
        cases r2 with
        | nil =>
          show (isHourSeg p0 && isMinSeg p1 && isSecSeg p2)
            = (specHour p0 && specMin p1 && specSec p2)
          rw [isHourSeg_eq_specHour, isMinSeg_eq_specMin, isSecSeg_eq_specSec]
        | cons p3 r3 => rfl

/-- C10: the canonical formatter's output always passes the strict commit
regex, for every nonnegative second count — so a captured or formatted time
can always be committed as a Timestamp. -/
theorem c10_formatter_output_commits :
    ∀ s : Nat, timeRegexTest (formatSeconds s) = true :=
  timeRegexTest_formatSeconds

/-- C4: the sorted view is a permutation of the stored entries, ordered
ascending by `seconds`, with entries of equal `seconds` kept in stored order
(stable); and inserting seconds `[50, 10, 10, 30]` in that order yields the
view `[10 (first), 10 (second), 30, 50]`. -/
theorem c4_sorted_view_stable :
    (∀ ts : List Timestamp,
      List.Perm (sortedView ts) ts
      ∧ (sortedView ts).Pairwise (fun a b => a.seconds ≤ b.seconds)
      ∧ ∀ k : Nat, (sortedView ts).filter (fun u => u.seconds == k)
          = ts.filter (fun u => u.seconds == k))
    ∧ sortedView (runOps [LedgerOp.load,
        LedgerOp.add ("0:50".toList) ['a'] 1, LedgerOp.add ("0:10".toList) ['b'] 2,
        LedgerOp.add ("0:10".toList) ['c'] 3,
        LedgerOp.add ("0:30".toList) ['d'] 4]).timestamps
      = [⟨['2'], "0:10".toList, ['b'], 10⟩, ⟨['3'], "0:10".toList, ['c'], 10⟩,
         ⟨['4'], "0:30".toList, ['d'], 30⟩, ⟨['1'], "0:50".toList, ['a'], 50⟩] := by
  refine ⟨fun ts => ⟨sortedView_perm ts, sortedView_sorted ts,
    fun k => sortedView_stable ts k⟩, ?_⟩
  decide

/-- C5 counterexample: exporting does not leave the stored collection in its
prior insertion order — `Array.prototype.sort` sorts the state array in
place, so after `copyToClipboard` the stored list of `[50-entry, 10-entry]`
is no longer `[50-entry, 10-entry]`. -/
theorem c5_export_mutates_storage_counterexample :
    (copyToClipboard [⟨['1'], "0:50".toList, ['A'], 50⟩,
        ⟨['2'], "0:10".toList, ['B'], 10⟩]).1
      ≠ [⟨['1'], "0:50".toList, ['A'], 50⟩, ⟨['2'], "0:10".toList, ['B'], 10⟩] := by
  decide

/-- C5 amended: producing the export keeps exactly the same entries (a
permutation, nothing added or lost), but persists the sorted order into
storage: an empty ledger is left untouched, and a nonempty ledger is left in
ascending-`seconds` order (the sorted view) rather than insertion order. -/
theorem c5_export_sorts_storage :
    ∀ ts : List Timestamp,
      List.Perm ((copyToClipboard ts).1) ts
      ∧ (ts.isEmpty = true → (copyToClipboard ts).1 = ts)
      ∧ (ts.isEmpty = false → (copyToClipboard ts).1 = sortedView ts) := by
  intro ts
  refine ⟨?_, ?_, ?_⟩
  · by_cases h : ts.isEmpty = true
    · simp [copyToClipboard, h]
    · simp only [copyToClipboard, if_neg h]
      exact sortedView_perm ts
  · intro h
    simp [copyToClipboard, h]
  · intro h
    simp [copyToClipboard, h]

/-- Witness for C5 amended at a concrete two-entry ledger. -/
theorem c5_export_sorts_storage_witness :
    (copyToClipboard [⟨['1'], "0:50".toList, ['A'], 50⟩,
        ⟨['2'], "0:10".toList, ['B'], 10⟩]).1
      = sortedView [⟨['1'], "0:50".toList, ['A'], 50⟩,
          ⟨['2'], "0:10".toList, ['B'], 10⟩] :=
  (c5_export_sorts_storage [⟨['1'], "0:50".toList, ['A'], 50⟩,
    ⟨['2'], "0:10".toList, ['B'], 10⟩]).2.2 rfl

/-- C6 (code bug): ids come from `Date.now().toString()`, so two commits
falling in the same clock millisecond (both reading 1000) produce two ledger
entries with the identical id `"1000"` — the uniqueness invariant fails. -/
theorem c6_duplicate_ids_same_millisecond :
    ((runOps [LedgerOp.load, LedgerOp.add ("0:01".toList) ['a'] 1000,
        LedgerOp.add ("0:02".toList) ['b'] 1000]).timestamps.map Timestamp.id)
      = [['1', '0', '0', '0'], ['1', '0', '0', '0']]
    ∧ ¬ ((runOps [LedgerOp.load, LedgerOp.add ("0:01".toList) ['a'] 1000,
        LedgerOp.add ("0:02".toList) ['b'] 1000]).timestamps.map Timestamp.id).Nodup := by
  constructor
  · decide
  · decide

/-- C7: the export payload is the sorted view rendered as
`"<time> - <description>"` lines joined by newlines; the empty ledger
exports the empty string; and after adding `("1:05", "Intro")` then
`("0:30", "Hook")` the export is `"0:30 - Hook\n1:05 - Intro"`. -/
theorem c7_export_text :
    exportText [] = []
    ∧ (∀ ts : List Timestamp, exportText ts
        = joinNewline ((sortedView ts).map
            (fun t => t.time ++ ' ' :: '-' :: ' ' :: t.description)))
    ∧ exportText (runOps [LedgerOp.load,
        LedgerOp.add ("1:05".toList) ("Intro".toList) 1,
        LedgerOp.add ("0:30".toList) ("Hook".toList) 2]).timestamps
      = "0:30 - Hook\n1:05 - Intro".toList := by
  refine ⟨rfl, fun ts => rfl, ?_⟩
  decide

/-- C8: after any sequence of user operations, every stored Timestamp's
`seconds` field is exactly what `timeToSeconds` yields on its `time` field —
the two fields never diverge. -/
theorem c8_seconds_consistent (ops : List LedgerOp) :
    ∀ t ∈ (runOps ops).timestamps, timeToSeconds t.time = some t.seconds :=
  foldl_applyOp_inv ops initState (by simp [initState])

/-- Witness for C8: the entry committed by a concrete add operation. -/
theorem c8_seconds_consistent_witness :
    (⟨['7'], "0:05".toList, ['x'], 5⟩ : Timestamp)
        ∈ (runOps [LedgerOp.load, LedgerOp.add ("0:05".toList) ['x'] 7]).timestamps
    ∧ timeToSeconds ("0:05".toList) = some 5 :=
  ⟨by decide,
   c8_seconds_consistent [LedgerOp.load, LedgerOp.add ("0:05".toList) ['x'] 7]
     ⟨['7'], "0:05".toList, ['x'], 5⟩ (by decide)⟩

/-- C9 counterexample: removing an id that is not present (here from the
empty ledger) leaves the collection unchanged but still reports a removal —
the success notice `"Timestamp removed"` is emitted unconditionally, so the
code never "reports that nothing was removed". -/
theorem c9_remove_always_reports_counterexample :
    removeTimestamp [] ['1'] = ([], true) := by
  decide

/-- C9 amended: `removeTimestamp` keeps exactly the entries whose id differs
(removing every entry carrying the given id), an absent id leaves the
collection entirely unchanged with no error, but the operation reports a
removal unconditionally rather than reporting whether anything was removed. -/
theorem c9_remove_filters :
    ∀ (ts : List Timestamp) (id : List Char),
      (removeTimestamp ts id).1 = ts.filter (fun t => t.id != id)
      ∧ ((∀ t ∈ ts, t.id ≠ id) → (removeTimestamp ts id).1 = ts)
      ∧ (removeTimestamp ts id).2 = true := by
  intro ts id
  refine ⟨rfl, ?_, rfl⟩
  intro h
  exact List.filter_eq_self.mpr (fun t ht => by simpa [bne_iff_ne] using h t ht)

/-- Witness for C9 amended: removing an absent id from a one-entry ledger. -/
theorem c9_remove_filters_witness :
    (removeTimestamp [⟨['1'], "0:05".toList, ['x'], 5⟩] ['9']).1
      = [⟨['1'], "0:05".toList, ['x'], 5⟩] :=
  (c9_remove_filters [⟨['1'], "0:05".toList, ['x'], 5⟩] ['9']).2.1 (by decide)
